import Mathlib

/-!
Verification of `robin_dict.py` (repository `robin_hood_dict`): a mutable
associative container built on open-addressed Robin Hood hashing with an
adaptive, statistics-guided probe search and tombstone-based deletion.

The Python source is shallowly embedded below.  Keys and values are modelled
as `Int` (CPython's `hash` of a small nonnegative int is the int itself, and
the structure is key-type generic only through `hash`/`==`).  Python
exceptions are modelled by `PyErr`; a raising method propagates the table
state as it stood when the exception was raised, because Python exceptions
do not roll back earlier field mutations.  `__setitem__` is recursive
(the eviction cascade) and may call `_rehash`, which calls `__setitem__`
again, so the embedding threads an explicit fuel bounding the nesting
depth; `SetOut.nofuel` marks fuel exhaustion and is proved unreachable for
reachable table states with enough fuel.
-/

set_option autoImplicit false

namespace RobinDict

/-- Python exception kinds that the translated code can raise. -/
inductive PyErr where
  | keyError
  | typeError
  | zeroDivisionError
  | indexError
deriving DecidableEq

/-- Model of `RobinValue = NamedTuple(hash, key, value)`.  A `RobinValue`
is a nonempty tuple and hence always truthy in Python. -/
structure RobinValue where
  hash : Nat
  key : Int
  value : Int
deriving DecidableEq

/-- Model of `Bucket = Optional[RobinValue]`: `none` is Python `None`
(falsy), used both for never-occupied slots and for tombstoned slots. -/
abbrev Bucket := Option RobinValue

/-- Model of `class BucketList(List[Bucket])`: the slot array together with
the `n_full` counter and the `tombstones` index set (modelled as a
duplicate-free list). -/
structure BucketList where
  data : List Bucket
  n_full : Int
  tombstones : List Nat
deriving DecidableEq

namespace BucketList

/-- Model of `BucketList.__setitem__`.  Writes `value` at `idx`, updates
`n_full` by the source's delta rule
`(-1 if old_value else 1) + (1 if value else -1)` and discards `idx` from
the tombstone set.  Call sites in `RobinHoodDict` always pass an index
returned by `_find_bucket`, which is in range; an out-of-range Python
write would raise IndexError, while `List.set` is a no-op. -/
def setitem (bl : BucketList) (idx : Nat) (value : Bucket) : BucketList :=
  let old_value : Bucket := bl.data[idx]?.getD none
  let delta : Int :=
    (if old_value.isSome then -1 else 1) + (if value.isSome then 1 else -1)
  { data := bl.data.set idx value,
    n_full := bl.n_full + delta,
    tombstones := bl.tombstones.filter (fun j => j ≠ idx) }

/-- Model of `BucketList.__delitem__`: decrement `n_full` if the slot was
occupied, blank the slot, and record the index as a tombstone. -/
def delitem (bl : BucketList) (idx : Nat) : BucketList :=
  let old_value : Bucket := bl.data[idx]?.getD none
  { data := bl.data.set idx none,
    n_full := if old_value.isSome then bl.n_full - 1 else bl.n_full,
    tombstones := if idx ∈ bl.tombstones then bl.tombstones else idx :: bl.tombstones }

/-- Fresh slot array of `n` empty slots: `BucketList(repeat(None, n))`. -/
def blank (n : Nat) : BucketList :=
  { data := List.replicate n none, n_full := 0, tombstones := [] }

end BucketList

/-- Model of the `RobinHoodDict` instance state: the bucket list plus the
two displacement statistics. -/
structure RobinHoodDict where
  buckets : BucketList
  mean_dist : Int
  max_dist : Int
deriving DecidableEq

/-- Capacity of the table: `len(self.buckets)`. -/
def capacity (s : RobinHoodDict) : Nat := s.buckets.data.length

/-- Python `hash` of an integer key (identity on the ints used here). -/
def hashKey (k : Int) : Int := k

/-- Home hash for a key at a given capacity: `hash(key) % capacity`.
Python `%` with a positive modulus is Euclidean remainder, which is
`Int.emod`.  Capacity `0` raises ZeroDivisionError in Python; the callers
below check for it explicitly. -/
def hash_mod (cap : Nat) (key : Int) : Nat := (hashKey key % (cap : Int)).toNat

/-- Model of `RobinHoodDict._compute_hash`. -/
def compute_hash (s : RobinHoodDict) (key : Int) : Nat :=
  hash_mod (capacity s) key

/-- Model of `RobinHoodDict._compare_keys`: `(key1 is key2) or (key1 == key2)`.
For value-semantics integer keys the identity fast path collapses into
equality. -/
def compare_keys (key1 key2 : Int) : Bool := key1 == key2

/-- The loop `for i, bucket in enumerate(self.buckets[h:])` of
`_find_bucket`: walk the slice starting at offset `i`, returning
`(h + i, bucket)` at the first slot that is falsy or holds an occupant
with `hash < h`.  Returns `none` when the loop completes without a `return`
statement, in which case the Python function returns `None` implicitly. -/
def find_bucket_scan (h : Nat) : Nat → List Bucket → Option (Nat × Bucket)
  | _, [] => none
  | i, b :: rest =>
    match b with
    | none => some (h + i, none)
    | some rv =>
        if rv.hash < h then some (h + i, some rv) else find_bucket_scan h (i + 1) rest

/-- Model of `RobinHoodDict._find_bucket`: scan `self.buckets[h:]`. -/
def find_bucket (s : RobinHoodDict) (h : Nat) : Option (Nat × Bucket) :=
  find_bucket_scan h 0 (s.buckets.data.drop h)

/-- Model of `RobinHoodDict._update_statistics_add` for an entry stored at
`idx` with home index `orig_idx`.  The source computes
`int((mean + distance / n_full) / 2)` with float division; for the
nonnegative operands arising here the float result truncates to the exact
rational truncation `(mean * n_full + distance) / (2 * n_full)` (the
quotient is an exact float whenever the rational value is an integer, and
is otherwise at least `1 / (2 * n_full)` away from any integer, far beyond
double rounding error at these magnitudes).  Returns ZeroDivisionError when
`n_full = 0`, as `distance / n_full` would in Python. -/
def update_statistics_add (s : RobinHoodDict) (idx orig_idx : Nat) :
    Except PyErr RobinHoodDict :=
  let distance : Int := (idx : Int) - (orig_idx : Int)
  if s.buckets.n_full = 0 then .error .zeroDivisionError
  else
    .ok { s with
      mean_dist := Int.tdiv (s.mean_dist * s.buckets.n_full + distance) (2 * s.buckets.n_full),
      max_dist := max s.max_dist distance }

/-- Model of `RobinHoodDict._get_max_dist`: maximum stored-index minus
stored-hash over the occupied slots, starting from `0`. -/
def get_max_dist (s : RobinHoodDict) : Int :=
  s.buckets.data.enum.foldl
    (fun dist p =>
      match p.2 with
      | some rv => max dist ((p.1 : Int) - (rv.hash : Int))
      | none => dist)
    0

/-- Model of `RobinHoodDict._update_statistics_remove` (called after the
slot has been blanked, so `self.buckets.n_full` is already decremented).
`int((mean * n_full - distance) // (n_full - 1))` is integer floor division
(`Int.fdiv`); it raises ZeroDivisionError when `n_full - 1 = 0`. -/
def update_statistics_remove (s : RobinHoodDict) (idx orig_idx : Nat) :
    Except PyErr RobinHoodDict :=
  let distance : Int := (idx : Int) - (orig_idx : Int)
  if s.buckets.n_full - 1 = 0 then .error .zeroDivisionError
  else
    let s1 := { s with
      mean_dist := Int.fdiv (s.mean_dist * s.buckets.n_full - distance) (s.buckets.n_full - 1) }
    .ok (if s1.max_dist = distance then { s1 with max_dist := get_max_dist s1 } else s1)

/-- The occupied entries of a slot array in index order:
`filter(None, buckets)`. -/
def occupied_entries (data : List Bucket) : List RobinValue :=
  data.filterMap id

/-- Outcome of a `__setitem__` call (or of the `_rehash` it may trigger):
normal return, a propagating Python exception together with the table
state at raise time, or fuel exhaustion of the embedding. -/
inductive SetOut where
  | ok (s : RobinHoodDict)
  | err (e : PyErr) (s : RobinHoodDict)
  | nofuel
deriving DecidableEq

/-- A pending activation in the `__setitem__` / `_rehash` recursion: either
a `__setitem__` call, or the remaining replay loop of a `_rehash` (the
fresh table together with the not-yet-replayed occupied entries of the old
one).  A single fuel-indexed interpreter over this call type makes the
mutual recursion of the source structurally recursive on the fuel, so that
concrete executions reduce definitionally. -/
inductive ExecCall where
  | set (s : RobinHoodDict) (key val : Int)
  | replay (s : RobinHoodDict) (entries : List RobinValue)

/-- Interpreter for `__setitem__` and the `_rehash` it may trigger.

For an `ExecCall.set` activation, the steps in source order are: compute
the home hash (ZeroDivisionError on a zero-capacity table), find the
target bucket (`_find_bucket` returning `None` makes the tuple unpacking
`idx, bucket = ...` raise TypeError), write the new `RobinValue` through
`BucketList.__setitem__`, update the displacement statistics, then either
recursively reinsert the evicted occupant or, when a falsy slot was
consumed directly, check `load_factor >= MAX_LOAD` and on overflow run
`_rehash`: allocate a blank bucket list of capacity
`int(n_full / MIN_LOAD)` (exactly `2 * n_full`; `Int.toNat` yields `0` for
a negative count just as `repeat(None, n)` yields nothing), keep the
displacement statistics, and replay the previously occupied entries in
slot order.  The float comparison `n_full / capacity >= 2/3` is modelled
by the exact rational comparison `3 * n_full >= 2 * capacity` (the ratios
occurring are never within double rounding error of the threshold).

For an `ExecCall.replay` activation — the loop
`for _, key, value in filter(None, old_buckets): self[key] = value` — each
entry is reinserted in turn; an exception raised by a replayed insert
propagates and aborts the loop. -/
def execFuel : Nat → ExecCall → SetOut
  | 0, _ => .nofuel
  | fuel + 1, .set s key val =>
    if capacity s = 0 then .err .zeroDivisionError s
    else
      match find_bucket s (compute_hash s key) with
      | none => .err .typeError s
      | some (idx, bucket) =>
        match update_statistics_add
            { s with buckets := s.buckets.setitem idx (some ⟨compute_hash s key, key, val⟩) }
            idx (compute_hash s key) with
        | .error e =>
          .err e { s with buckets := s.buckets.setitem idx (some ⟨compute_hash s key, key, val⟩) }
        | .ok s2 =>
          match bucket with
          | some rv => execFuel fuel (.set s2 rv.key rv.value)
          | none =>
            if 3 * s2.buckets.n_full ≥ 2 * (capacity s2 : Int) then
              execFuel fuel (.replay
                { s2 with buckets := BucketList.blank (2 * s2.buckets.n_full).toNat }
                (occupied_entries s2.buckets.data))
            else .ok s2
  | _ + 1, .replay s [] => .ok s
  | fuel + 1, .replay s (rv :: rest) =>
    match execFuel fuel (.set s rv.key rv.value) with
    | .ok s1 => execFuel fuel (.replay s1 rest)
    | .err e s1 => .err e s1
    | .nofuel => .nofuel

/-- Model of `RobinHoodDict.__setitem__` with nesting fuel. -/
def setitemFuel (fuel : Nat) (s : RobinHoodDict) (key val : Int) : SetOut :=
  execFuel fuel (.set s key val)

/-- The replay phase of `RobinHoodDict._rehash` with nesting fuel. -/
def replayFuel (fuel : Nat) (s : RobinHoodDict) (entries : List RobinValue) : SetOut :=
  execFuel fuel (.replay s entries)

/-- Model of the `RobinHoodDict.__init__` state for `n` initial entries,
before the per-entry `__setitem__` calls: capacity
`max(int(len(kwargs) / AVG_LOAD), 10)` where `AVG_LOAD = 7/12`, a blank
bucket list, and both displacement statistics set to `1`. -/
def blankDict (n : Nat) : RobinHoodDict :=
  { buckets := BucketList.blank (max ((12 * n) / 7) 10),
    mean_dist := 1,
    max_dist := 1 }

/-- Convenience runner: `__setitem__` with ample fuel for the small concrete
tables used below; on a Python exception the partially mutated state is
kept, mirroring exception propagation. -/
def runSet (s : RobinHoodDict) (key val : Int) : RobinHoodDict :=
  match setitemFuel 20 s key val with
  | .ok s1 => s1
  | .err _ s1 => s1
  | .nofuel => s

/-- Model of `RobinHoodDict.__len__`: returns `self.buckets.n_full`. -/
def lenDict (s : RobinHoodDict) : Int := s.buckets.n_full

/-- Python `range(a, b)` over ints, ascending with step 1. -/
def int_range_asc (a b : Int) : List Int :=
  (List.range (b - a).toNat).map (fun i => a + i)

/-- Python `range(a, b, -1)` over ints, descending with step 1. -/
def int_range_desc (a b : Int) : List Int :=
  (List.range (a - b).toNat).map (fun i => a - i)

/-- Python `itertools.zip_longest(xs, ys, fillvalue=fill)` on two int
sequences: pairs up to the longer length, padding the shorter with
`fill`. -/
def zip_longest_fill : List Int → List Int → Int → List (Int × Int)
  | [], ys, fill => ys.map (fun y => (fill, y))
  | x :: xs, [], fill => (x, fill) :: zip_longest_fill xs [] fill
  | x :: xs, y :: ys, fill => (x, y) :: zip_longest_fill xs ys fill

/-- Model of `RobinHoodDict._get_smart_search_indexes`.  The source builds
`indexes = zip_longest(range(mean + h, max + h + 1), range(mean + h - 1, h - 1, -1), fillvalue=0)`
whose elements are PAIRS, and then executes
`for idx in indexes: if idx >= h and idx not in tombstones: yield idx`.
In Python 3, `idx >= h` with `idx` a tuple and `h` an int raises TypeError,
so the generator raises TypeError as soon as its first element is
requested whenever the pair list is nonempty, and yields nothing (then
stops) when the pair list is empty. -/
def get_smart_search_indexes (s : RobinHoodDict) (h : Nat) :
    Except PyErr (List Int) :=
  match zip_longest_fill
      (int_range_asc (s.mean_dist + (h : Int)) (s.max_dist + (h : Int) + 1))
      (int_range_desc (s.mean_dist + (h : Int) - 1) ((h : Int) - 1))
      0 with
  | [] => .ok []
  | _ :: _ => .error .typeError

/-- Python `self.buckets[i]` for a candidate index produced by the search
generator.  Candidates pass the `idx >= h` filter with `h ≥ 0`, so a
negative index never reaches this read; any out-of-range index raises
IndexError. -/
def bucket_get (s : RobinHoodDict) (i : Int) : Except PyErr Bucket :=
  if 0 ≤ i ∧ i.toNat < capacity s then .ok (s.buckets.data[i.toNat]?.getD none)
  else .error .indexError

/-- The candidate loop of `RobinHoodDict.__getitem__`: stop with KeyError
at a falsy slot, return the value on a hash and key match, otherwise
continue; exhausting the candidates raises KeyError. -/
def getitem_scan (s : RobinHoodDict) (h : Nat) (key : Int) :
    List Int → Except PyErr Int
  | [] => .error .keyError
  | i :: rest =>
    match bucket_get s i with
    | .error e => .error e
    | .ok none => .error .keyError
    | .ok (some rv) =>
      if rv.hash = h then
        if compare_keys rv.key key then .ok rv.value
        else getitem_scan s h key rest
      else getitem_scan s h key rest

/-- Model of `RobinHoodDict.__getitem__` with the table state threaded
through, mirroring the method receiver: the returned state is the
receiver's state when the method returns or raises.  A zero-capacity
table raises ZeroDivisionError from `_compute_hash`. -/
def getitemS (s : RobinHoodDict) (key : Int) :
    Except PyErr Int × RobinHoodDict :=
  if capacity s = 0 then (.error .zeroDivisionError, s)
  else
    let h := compute_hash s key
    match get_smart_search_indexes s h with
    | .error e => (.error e, s)
    | .ok idxs => (getitem_scan s h key idxs, s)

/-- Result of `RobinHoodDict.__getitem__`. -/
def getitem (s : RobinHoodDict) (key : Int) : Except PyErr Int :=
  (getitemS s key).1

/-- The candidate loop of `RobinHoodDict.__delitem__` together with its
`for ... else: raise KeyError`.  On a match the slot is blanked through
`BucketList.__delitem__`, the removal statistics run (ZeroDivisionError
when the decremented `n_full` is `1`), and then the shrink check
`if self.load_factor <= MIN_LOAD / 2: self._rehash` evaluates
`self._rehash` WITHOUT calling it (no parentheses in the source), so it
has no effect on the state; the loop then breaks and the method
returns. -/
def delitem_scan (s : RobinHoodDict) (h : Nat) (key : Int) :
    List Int → Except PyErr Unit × RobinHoodDict
  | [] => (.error .keyError, s)
  | i :: rest =>
    match bucket_get s i with
    | .error e => (.error e, s)
    | .ok none => (.error .keyError, s)
    | .ok (some rv) =>
      if rv.hash = h ∧ compare_keys rv.key key then
        let s1 : RobinHoodDict :=
          { s with buckets := s.buckets.delitem i.toNat }
        match update_statistics_remove s1 i.toNat h with
        | .error e => (.error e, s1)
        | .ok s2 => (.ok (), s2)
      else delitem_scan s h key rest

/-- Model of `RobinHoodDict.__delitem__` with the table state threaded
through. -/
def delitem (s : RobinHoodDict) (key : Int) :
    Except PyErr Unit × RobinHoodDict :=
  if capacity s = 0 then (.error .zeroDivisionError, s)
  else
    let h := compute_hash s key
    match get_smart_search_indexes s h with
    | .error e => (.error e, s)
    | .ok idxs => delitem_scan s h key idxs

/-- Number of occupied slots holding the given key. -/
def count_key (data : List Bucket) (key : Int) : Nat :=
  data.countP (fun b =>
    match b with
    | some rv => rv.key == key
    | none => false)

/-- The Robin Hood ordering property as claimed by the specification:
scanning the slot array in increasing index order, adjacent occupied slots
(hence every maximal run of occupied slots) carry non-decreasing home
hashes. -/
def RobinOrdering (s : RobinHoodDict) : Prop :=
  ∀ i rv rv2, s.buckets.data[i]? = some (some rv) →
    s.buckets.data[i + 1]? = some (some rv2) → rv.hash ≤ rv2.hash

/-- Number of occupied slots in a slot array. -/
def occ_count (data : List Bucket) : Nat := data.countP (fun b => b.isSome)

/-- Structural invariant of the slot array relative to a capacity and a
stored maximum displacement: every occupied slot carries the home hash of
its own key, sits at or after its home index, is displaced by at most the
stored maximum, and has its whole probe path `[home, index)` occupied by
entries with home hashes at least its own. -/
def SlotInv (cap : Nat) (maxd : Int) (data : List Bucket) : Prop :=
  ∀ (i : Nat) (rv : RobinValue), data[i]? = some (some rv) →
    rv.hash = hash_mod cap rv.key ∧
    rv.hash ≤ i ∧
    (i : Int) - (rv.hash : Int) ≤ maxd ∧
    (∀ j : Nat, rv.hash ≤ j → j < i → ∃ rv2, data[j]? = some (some rv2) ∧ rv.hash ≤ rv2.hash)

/-- Invariant of every reachable table state: capacity at least the
constructor floor 10, the `n_full` counter equal to twice the occupied
count (the delta bug in `BucketList.__setitem__` adds 2 per fresh insert),
and the slot-array invariant. -/
def Inv (s : RobinHoodDict) : Prop :=
  10 ≤ capacity s ∧
  s.buckets.n_full = 2 * (occ_count s.buckets.data : Int) ∧
  SlotInv (capacity s) s.max_dist s.buckets.data

/-- The invariant holds of the state carried by a `__setitem__` outcome,
whether the call returned or raised. -/
def SetOutInv : SetOut → Prop
  | .ok s => Inv s
  | .err _ s => Inv s
  | .nofuel => True

/-- Outcome predicate for a `__setitem__` call running with load headroom
below the grow threshold: it does not exhaust fuel, and on normal return
the invariant still holds, the capacity is unchanged (no rehash happened)
and `n_full` grew by at most 2. -/
def HeadroomOut (s : RobinHoodDict) : SetOut → Prop
  | .ok s1 => Inv s1 ∧ capacity s1 = capacity s ∧
      s1.buckets.n_full ≤ s.buckets.n_full + 2
  | .err _ _ => True
  | .nofuel => False

/-- Table states reachable from construction by the public mutating
operations, including operations that raise (a raising `__setitem__` keeps
its partial mutations; `__getitem__` never mutates, see
`getitem_leaves_state_unchanged`). -/
inductive Reachable : RobinHoodDict → Prop where
  | init (n : Nat) : Reachable (blankDict n)
  | set_ok (s s2 : RobinHoodDict) (fuel : Nat) (key val : Int) :
      Reachable s → setitemFuel fuel s key val = .ok s2 → Reachable s2
  | set_err (s s2 : RobinHoodDict) (fuel : Nat) (key val : Int) (e : PyErr) :
      Reachable s → setitemFuel fuel s key val = .err e s2 → Reachable s2
  | del_step (s s2 : RobinHoodDict) (key : Int) (r : Except PyErr Unit) :
      Reachable s → delitem s key = (r, s2) → Reachable s2

end RobinDict

namespace RobinDict

/-! ### Claim theorems on concrete executions -/

/-- C1: the claim states that `set(k, v)` followed immediately by `get(k)`
returns `v` for any key/value pair.  The code refutes it: on a fresh table,
after `set(0, 1)`, `get(0)` raises TypeError, because
`_get_smart_search_indexes` iterates `zip_longest` PAIRS and compares a
pair against the int `h`.  No `get` can ever return a value. -/
theorem set_then_get_raises_typeError :
    getitem (runSet (blankDict 0) 0 1) 0 = .error .typeError := by rfl

/-- C2: the claim states that setting an already-present key overwrites in
place, leaving `len()` unchanged and exactly one occupied slot for the key.
The code refutes it: `_find_bucket` never compares keys, so `set(0, 2)`
after `set(0, 1)` stores a second slot for key `0`; `len()` reports `4`
(each fresh insert bumps `n_full` by `2`), and `get(0)` raises TypeError
rather than returning `2`. -/
theorem set_existing_key_inserts_duplicate :
    count_key (runSet (runSet (blankDict 0) 0 1) 0 2).buckets.data 0 = 2 ∧
    lenDict (runSet (runSet (blankDict 0) 0 1) 0 2) = 4 ∧
    getitem (runSet (runSet (blankDict 0) 0 1) 0 2) 0 = .error .typeError :=
  ⟨by rfl, by rfl, by rfl⟩

/-- C3: the claim states that after a sequence of `set`s with distinct keys,
`len()` equals the number of keys set.  The code refutes it already for one
key: `BucketList.__setitem__` computes `delta = (-1 if old else 1) + (1 if
new else -1)`, which is `+2` for an Empty-to-Occupied transition, so after
a single `set` the table reports `len() = 2`. -/
theorem len_after_single_set_is_two :
    lenDict (runSet (blankDict 0) 0 1) = 2 := by rfl

/-- C4: the claim states that KeyNotFound is the only error kind, raised by
`get`/`delete` exactly when the key is absent, and that `set` never fails.
The code refutes all three parts: `get` and `delete` raise TypeError (the
search generator compares a tuple with an int) on any table whose search
window is nonempty, and `set` raises TypeError (unpacking the `None`
returned by `_find_bucket`) when the forward probe runs off the end of the
array, e.g. `set(9, 1)` then `set(19, 2)` at capacity 10. -/
theorem operations_raise_typeError :
    getitem (blankDict 0) 0 = .error .typeError ∧
    (delitem (blankDict 0) 0).1 = .error .typeError ∧
    setitemFuel 20 (runSet (blankDict 0) 9 1) 19 2 =
      .err .typeError (runSet (blankDict 0) 9 1) :=
  ⟨by rfl, by rfl, by rfl⟩

/-- C5: the claim states that the adaptive search window yields the
interleaved candidate sequence `h+mean, h+mean+1, h+mean-1, …` covering
`[h, h+max_displacement]`.  The code refutes it: the generator never yields
a single candidate — on a fresh table (`mean = max = 1`) at home index `0`
the very first element examined is the pair `(1, 0)`, and `(1, 0) >= 0`
raises TypeError. -/
theorem smart_search_raises_typeError :
    get_smart_search_indexes (blankDict 0) 0 = .error .typeError := by rfl

/-- C7: the claim states that a successful delete leaving load factor at or
below 1/4 triggers a shrink rehash.  The code refutes it twice over: no
delete can ever succeed (the candidate generator raises TypeError before
any slot is examined: deleting key `0` from the one-entry capacity-10
table, whose post-delete load 1/10 would oblige a shrink, raises TypeError
and leaves the table, including its capacity, unchanged), and even the
unreachable shrink site executes `self._rehash` without calling it. -/
theorem delete_raises_and_never_shrinks :
    delitem (runSet (blankDict 0) 0 1) 0 =
      (.error .typeError, runSet (blankDict 0) 0 1) ∧
    capacity (delitem (runSet (blankDict 0) 0 1) 0).2 = 10 :=
  ⟨by rfl, by rfl⟩

/-- C6 counterexample: the claimed Robin Hood ordering fails on the code.
At capacity 10, inserting keys `4`, `5`, `14` (homes `4`, `5`, `4`) places
key `14` at slot 6 — `_find_bucket` steals only from occupants with a
STRICTLY smaller home hash, so it walks past slots 4 and 5 — giving the
occupied run at slots 4..6 the home-hash sequence `4, 5, 4`, which is not
non-decreasing. -/
theorem robin_ordering_violated :
    ¬ RobinOrdering (runSet (runSet (runSet (blankDict 0) 4 10) 5 11) 14 12) := by
  intro hord
  have h5 : (runSet (runSet (runSet (blankDict 0) 4 10) 5 11) 14 12).buckets.data[5]? =
      some (some ⟨5, 5, 11⟩) := by rfl
  have h6 : (runSet (runSet (runSet (blankDict 0) 4 10) 5 11) 14 12).buckets.data[6]? =
      some (some ⟨4, 14, 12⟩) := by rfl
  exact absurd (hord 5 ⟨5, 5, 11⟩ ⟨4, 14, 12⟩ h5 h6) (by decide)

/-- C10: `get` never mutates the table: whether the lookup returns, raises
KeyError, or raises TypeError, the receiver state — slot array, counters,
tombstones and both displacement statistics — is returned unchanged. -/
theorem getitem_leaves_state_unchanged (s : RobinHoodDict) (key : Int) :
    (getitemS s key).2 = s := by
  unfold getitemS
  split
  · rfl
  · show (match get_smart_search_indexes s (compute_hash s key) with
      | Except.error e => (Except.error e, s)
      | Except.ok idxs => (getitem_scan s (compute_hash s key) key idxs, s)).2 = s
    split <;> rfl

/-! ### Invariant machinery: helper lemmas -/

lemma find_bucket_scan_spec (h : Nat) :
    ∀ (l : List Bucket) (i idx : Nat) (b : Bucket),
      find_bucket_scan h i l = some (idx, b) →
      ∃ off, off < l.length ∧ idx = h + (i + off) ∧ l[off]? = some b ∧
        (∀ k, k < off → ∃ rv2, l[k]? = some (some rv2) ∧ ¬ rv2.hash < h) ∧
        (b = none ∨ ∃ rv, b = some rv ∧ rv.hash < h) := by
  intro l
  induction l with
  | nil => intro i idx b heq; simp [find_bucket_scan] at heq
  | cons hd tl ih =>
    intro i idx b heq
    cases hd with
    | none =>
      simp only [find_bucket_scan, Option.some.injEq, Prod.mk.injEq] at heq
      refine ⟨0, by simp, by omega, ?_, by omega, Or.inl heq.2.symm⟩
      simp [heq.2.symm]
    | some rv =>
      by_cases hlt : rv.hash < h
      · simp only [find_bucket_scan, if_pos hlt, Option.some.injEq, Prod.mk.injEq] at heq
        refine ⟨0, by simp, by omega, ?_, by omega, Or.inr ⟨rv, heq.2.symm, hlt⟩⟩
        simp [heq.2.symm]
      · simp only [find_bucket_scan, if_neg hlt] at heq
        obtain ⟨off, hofflt, hidx, hget, hpath, hb⟩ := ih (i + 1) idx b heq
        refine ⟨off + 1, by simpa using hofflt, by omega, by simpa using hget, ?_, hb⟩
        intro k hk
        cases k with
        | zero => exact ⟨rv, by simp, hlt⟩
        | succ k2 =>
          obtain ⟨rv2, hrv2, hn⟩ := hpath k2 (by omega)
          exact ⟨rv2, by simpa using hrv2, hn⟩

lemma find_bucket_spec (s : RobinHoodDict) (h idx : Nat) (b : Bucket)
    (hfb : find_bucket s h = some (idx, b)) :
    h ≤ idx ∧ idx < s.buckets.data.length ∧ s.buckets.data[idx]? = some b ∧
    (∀ j, h ≤ j → j < idx →
      ∃ rv2, s.buckets.data[j]? = some (some rv2) ∧ ¬ rv2.hash < h) ∧
    (b = none ∨ ∃ rv, b = some rv ∧ rv.hash < h) := by
  obtain ⟨off, hofflt, hidx, hget, hpath, hb⟩ :=
    find_bucket_scan_spec h _ 0 idx b hfb
  rw [List.length_drop] at hofflt
  rw [List.getElem?_drop] at hget
  have hidx2 : idx = h + off := by omega
  refine ⟨by omega, by omega, by rw [hidx2]; exact hget, ?_, hb⟩
  intro j hj1 hj2
  obtain ⟨rv2, hrv2, hn⟩ := hpath (j - h) (by omega)
  rw [List.getElem?_drop] at hrv2
  have : h + (j - h) = j := by omega
  rw [this] at hrv2
  exact ⟨rv2, hrv2, hn⟩

lemma countP_set_of_getElem (p : Bucket → Bool) :
    ∀ (data : List Bucket) (idx : Nat) (x b : Bucket), data[idx]? = some b →
      (data.set idx x).countP p + (if p b then 1 else 0)
        = data.countP p + (if p x then 1 else 0) := by
  intro data
  induction data with
  | nil => intro idx x b hb; simp at hb
  | cons hd tl ih =>
    intro idx x b hb
    cases idx with
    | zero =>
      simp only [List.getElem?_cons_zero, Option.some.injEq] at hb
      subst hb
      simp only [List.set_cons_zero, List.countP_cons]
      omega
    | succ n =>
      simp only [List.getElem?_cons_succ] at hb
      have := ih n x b hb
      simp only [List.set_cons_succ, List.countP_cons]
      omega

lemma length_occupied_entries (data : List Bucket) :
    (occupied_entries data).length = occ_count data := by
  induction data with
  | nil => rfl
  | cons hd tl ih =>
    cases hd with
    | none => simpa [occupied_entries, occ_count, List.countP_cons] using ih
    | some rv => simpa [occupied_entries, occ_count, List.countP_cons] using ih

lemma occ_count_replicate (n : Nat) :
    occ_count (List.replicate n (none : Bucket)) = 0 := by
  induction n with
  | zero => rfl
  | succ n ih => simp [List.replicate_succ, occ_count, List.countP_cons, ih]

lemma countP_pos_of_getElem (p : Bucket → Bool) :
    ∀ (data : List Bucket) (idx : Nat) (b : Bucket),
      data[idx]? = some b → p b = true → 1 ≤ data.countP p := by
  intro data
  induction data with
  | nil => intro idx b hb; simp at hb
  | cons hd tl ih =>
    intro idx b hb hp
    cases idx with
    | zero =>
      simp only [List.getElem?_cons_zero, Option.some.injEq] at hb
      subst hb
      simp [List.countP_cons, hp]
    | succ n =>
      simp only [List.getElem?_cons_succ] at hb
      have := ih n b hb hp
      simp only [List.countP_cons]
      omega

lemma get_smart_result (s : RobinHoodDict) (h : Nat) :
    get_smart_search_indexes s h = .ok [] ∨
    get_smart_search_indexes s h = .error .typeError := by
  rcases hzl : zip_longest_fill
      (int_range_asc (s.mean_dist + (h : Int)) (s.max_dist + (h : Int) + 1))
      (int_range_desc (s.mean_dist + (h : Int) - 1) ((h : Int) - 1))
      0 with _ | ⟨p, rest⟩
  · left; simp [get_smart_search_indexes, hzl]
  · right; simp [get_smart_search_indexes, hzl]

lemma delitem_snd (s : RobinHoodDict) (key : Int) : (delitem s key).2 = s := by
  unfold delitem
  split
  · rfl
  · show (match get_smart_search_indexes s (compute_hash s key) with
      | Except.error e => (Except.error e, s)
      | Except.ok idxs => delitem_scan s (compute_hash s key) key idxs).2 = s
    rcases get_smart_result s (compute_hash s key) with hok | herr
    · rw [hok]; rfl
    · rw [herr]

lemma blankDict_inv (n : Nat) : Inv (blankDict n) := by
  refine ⟨?_, ?_, ?_⟩
  · show 10 ≤ (blankDict n).buckets.data.length
    simp [blankDict, BucketList.blank]
  · simp [blankDict, BucketList.blank, occ_count_replicate]
  · intro i rv hget
    rw [show (blankDict n).buckets.data = List.replicate (max ((12 * n) / 7) 10) none from rfl,
      List.getElem?_replicate] at hget
    split at hget <;> simp at hget

lemma slotInv_set (cap : Nat) (maxd maxd2 : Int) (data : List Bucket)
    (h idx : Nat) (key val : Int) (b : Bucket)
    (hSI : SlotInv cap maxd data)
    (hh : h = hash_mod cap key)
    (hidx : data[idx]? = some b)
    (hge : h ≤ idx)
    (hpath : ∀ j, h ≤ j → j < idx →
      ∃ rv2, data[j]? = some (some rv2) ∧ ¬ rv2.hash < h)
    (hb : b = none ∨ ∃ rv, b = some rv ∧ rv.hash < h)
    (hmax1 : maxd ≤ maxd2) (hmax2 : (idx : Int) - (h : Int) ≤ maxd2) :
    SlotInv cap maxd2 (data.set idx (some ⟨h, key, val⟩)) := by
  have hlen : idx < data.length := by
    by_contra hc
    rw [List.getElem?_eq_none (by omega)] at hidx
    exact Option.noConfusion hidx
  intro i rv hget
  by_cases hi : i = idx
  · subst hi
    rw [List.getElem?_set_eq_of_lt _ hlen] at hget
    have hrv : (⟨h, key, val⟩ : RobinValue) = rv := by
      simpa using hget
    subst hrv
    refine ⟨hh, hge, hmax2, ?_⟩
    intro j hj1 hj2
    obtain ⟨rv2, hrv2, hn⟩ := hpath j hj1 hj2
    refine ⟨rv2, by rwa [List.getElem?_set_ne (by omega)], ?_⟩
    show h ≤ rv2.hash
    omega
  · rw [List.getElem?_set_ne (by omega)] at hget
    obtain ⟨hc1, hc2, hc3, hc4⟩ := hSI i rv hget
    refine ⟨hc1, hc2, hc3.trans hmax1, ?_⟩
    intro j hj1 hj2
    by_cases hji : j = idx
    · subst hji
      obtain ⟨rv3, hrv3, hle3⟩ := hc4 j hj1 hj2
      rw [hidx] at hrv3
      rcases hb with hbn | ⟨rvOld, hbo, hlt⟩
      · subst hbn; exact Option.noConfusion (Option.some.inj hrv3)
      · subst hbo
        have : rvOld = rv3 := by simpa using hrv3
        subst this
        refine ⟨⟨h, key, val⟩, ?_, ?_⟩
        · rw [List.getElem?_set_eq_of_lt _ hlen]
        · show rv.hash ≤ h
          omega
    · obtain ⟨rv3, hrv3, hle3⟩ := hc4 j hj1 hj2
      exact ⟨rv3, by rwa [List.getElem?_set_ne (by omega)], hle3⟩

lemma insert_step (s : RobinHoodDict) (key val : Int) (idx : Nat) (b : Bucket)
    (hInv : Inv s)
    (hfb : find_bucket s (compute_hash s key) = some (idx, b)) :
    ∃ s2,
      update_statistics_add
        { s with buckets := s.buckets.setitem idx (some ⟨compute_hash s key, key, val⟩) }
        idx (compute_hash s key) = .ok s2 ∧
      Inv s2 ∧
      capacity s2 = capacity s ∧
      s2.buckets.n_full = s.buckets.n_full + (if b.isSome then 0 else 2) ∧
      s.max_dist ≤ s2.max_dist := by
  obtain ⟨hInvCap, hInvN, hInvSI⟩ := hInv
  obtain ⟨hge, hlt, hidx, hpath, hb⟩ := find_bucket_spec s (compute_hash s key) idx b hfb
  have hdata1 :
      (s.buckets.setitem idx (some ⟨compute_hash s key, key, val⟩)).data
        = s.buckets.data.set idx (some ⟨compute_hash s key, key, val⟩) := rfl
  have hold :
      s.buckets.data[idx]?.getD none = b := by rw [hidx]; rfl
  have hn1 :
      (s.buckets.setitem idx (some ⟨compute_hash s key, key, val⟩)).n_full
        = s.buckets.n_full + (if b.isSome then 0 else 2) := by
    show s.buckets.n_full +
        ((if (s.buckets.data[idx]?.getD none).isSome then -1 else 1) +
          (if (some (⟨compute_hash s key, key, val⟩ : RobinValue)).isSome then 1 else -1))
      = s.buckets.n_full + (if b.isSome then 0 else 2)
    rw [hold]
    cases b <;> simp
  have hocc :
      occ_count (s.buckets.data.set idx (some ⟨compute_hash s key, key, val⟩))
          + (if b.isSome then 1 else 0)
        = occ_count s.buckets.data + 1 := by
    have := countP_set_of_getElem (fun c => c.isSome) s.buckets.data idx
      (some ⟨compute_hash s key, key, val⟩) b hidx
    simpa [occ_count] using this
  have hnz :
      (s.buckets.setitem idx (some ⟨compute_hash s key, key, val⟩)).n_full ≠ 0 := by
    rw [hn1, hInvN]
    rcases hb with hbn | ⟨rvOld, hbo, _⟩
    · subst hbn
      have : (0:Int) ≤ (occ_count s.buckets.data : Int) := by positivity
      simp only [Option.isSome_none, Bool.false_eq_true, if_false]
      omega
    · subst hbo
      have hpos : 1 ≤ occ_count s.buckets.data :=
        countP_pos_of_getElem (fun c => c.isSome) s.buckets.data idx (some rvOld) hidx rfl
      have : (1:Int) ≤ (occ_count s.buckets.data : Int) := by exact_mod_cast hpos
      simp only [Option.isSome_some, if_true]
      omega
  have hok : update_statistics_add
      { s with buckets := s.buckets.setitem idx (some ⟨compute_hash s key, key, val⟩) }
      idx (compute_hash s key)
      = .ok { s with
          buckets := s.buckets.setitem idx (some ⟨compute_hash s key, key, val⟩),
          mean_dist := Int.tdiv
            (s.mean_dist * (s.buckets.setitem idx (some ⟨compute_hash s key, key, val⟩)).n_full
              + ((idx : Int) - (compute_hash s key : Int)))
            (2 * (s.buckets.setitem idx (some ⟨compute_hash s key, key, val⟩)).n_full),
          max_dist := max s.max_dist ((idx : Int) - (compute_hash s key : Int)) } := by
    simp only [update_statistics_add]
    rw [if_neg hnz]
  refine ⟨_, hok, ?_, ?_, ?_, ?_⟩
  · constructor
    · show 10 ≤ (s.buckets.data.set idx (some ⟨compute_hash s key, key, val⟩)).length
      rw [List.length_set]
      exact hInvCap
    constructor
    · show (s.buckets.setitem idx (some ⟨compute_hash s key, key, val⟩)).n_full
        = 2 * (occ_count (s.buckets.data.set idx (some ⟨compute_hash s key, key, val⟩)) : Int)
      rw [hn1, hInvN]
      cases b with
      | none =>
        simp only [Option.isSome_none, Bool.false_eq_true, if_false] at hocc ⊢
        have hocc2 : occ_count (s.buckets.data.set idx (some ⟨compute_hash s key, key, val⟩))
            = occ_count s.buckets.data + 1 := by omega
        rw [hocc2]
        push_cast
        ring
      | some rvOld =>
        simp only [Option.isSome_some, if_true] at hocc ⊢
        have hocc2 : occ_count (s.buckets.data.set idx (some ⟨compute_hash s key, key, val⟩))
            = occ_count s.buckets.data := by omega
        rw [hocc2]
        ring
    · show SlotInv (s.buckets.data.set idx (some ⟨compute_hash s key, key, val⟩)).length
        (max s.max_dist ((idx : Int) - (compute_hash s key : Int)))
        (s.buckets.data.set idx (some ⟨compute_hash s key, key, val⟩))
      rw [List.length_set]
      exact slotInv_set (capacity s) s.max_dist _ s.buckets.data (compute_hash s key) idx
        key val b hInvSI rfl hidx hge hpath hb (le_max_left _ _) (le_max_right _ _)
  · show (s.buckets.data.set idx (some ⟨compute_hash s key, key, val⟩)).length = capacity s
    rw [List.length_set]
    rfl
  · exact hn1
  · exact le_max_left _ _

lemma rehash_blank_inv (s2 : RobinHoodDict) (hInv : Inv s2)
    (hload : 3 * s2.buckets.n_full ≥ 2 * (capacity s2 : Int)) :
    Inv { s2 with buckets := BucketList.blank (2 * s2.buckets.n_full).toNat } := by
  obtain ⟨hcap, hn, _⟩ := hInv
  have hcap2 : (10:Int) ≤ (capacity s2 : Int) := by exact_mod_cast hcap
  have hn7 : (7:Int) ≤ s2.buckets.n_full := by omega
  refine ⟨?_, ?_, ?_⟩
  · show 10 ≤ (List.replicate (2 * s2.buckets.n_full).toNat (none : Bucket)).length
    rw [List.length_replicate]
    omega
  · show (0:Int) = 2 * (occ_count (List.replicate (2 * s2.buckets.n_full).toNat none) : Int)
    rw [occ_count_replicate]
    simp
  · intro i rv hget
    rw [show ({ s2 with buckets := BucketList.blank (2 * s2.buckets.n_full).toNat }
        : RobinHoodDict).buckets.data
      = List.replicate (2 * s2.buckets.n_full).toNat none from rfl,
      List.getElem?_replicate] at hget
    split at hget <;> simp at hget

lemma execFuel_inv : ∀ (fuel : Nat) (c : ExecCall),
    (match c with
     | .set s _ _ => Inv s
     | .replay s _ => Inv s) →
    SetOutInv (execFuel fuel c) := by
  intro fuel
  induction fuel with
  | zero => intro c hc; cases c <;> trivial
  | succ fuel ih =>
    intro c hc
    cases c with
    | set s key val =>
      have hInv : Inv s := hc
      rw [execFuel]
      split
      · exact hInv
      · rcases hfb : find_bucket s (compute_hash s key) with _ | ⟨idx, bucket⟩
        · exact hInv
        · obtain ⟨s2, hok, hInv2, hcap2, hn2, hmax2⟩ :=
            insert_step s key val idx bucket hInv hfb
          dsimp only
          rw [hok]
          dsimp only
          cases bucket with
          | some rv => exact ih (.set s2 rv.key rv.value) hInv2
          | none =>
            dsimp only
            split
            · rename_i hload
              exact ih
                (.replay { s2 with buckets := BucketList.blank (2 * s2.buckets.n_full).toNat }
                  (occupied_entries s2.buckets.data))
                (rehash_blank_inv s2 hInv2 hload)
            · exact hInv2
    | replay s entries =>
      have hInv : Inv s := hc
      cases entries with
      | nil => rw [execFuel]; exact hInv
      | cons rv rest =>
        rw [execFuel]
        have hset := ih (.set s rv.key rv.value) hInv
        rcases hout : execFuel fuel (.set s rv.key rv.value) with s1 | ⟨e, s1⟩ | _
        · rw [hout] at hset
          exact ih (.replay s1 rest) hset
        · rw [hout] at hset
          exact hset
        · trivial

lemma reachable_inv : ∀ {s : RobinHoodDict}, Reachable s → Inv s := by
  intro s hr
  induction hr with
  | init n => exact blankDict_inv n
  | set_ok s0 s2 fuel key val hr0 hstep ih =>
    have hout := execFuel_inv fuel (.set s0 key val) ih
    rw [show execFuel fuel (.set s0 key val) = setitemFuel fuel s0 key val from rfl,
      hstep] at hout
    exact hout
  | set_err s0 s2 fuel key val e hr0 hstep ih =>
    have hout := execFuel_inv fuel (.set s0 key val) ih
    rw [show execFuel fuel (.set s0 key val) = setitemFuel fuel s0 key val from rfl,
      hstep] at hout
    exact hout
  | del_step s0 s2 key r hr0 hstep ih =>
    have h2 : s2 = s0 := by
      have := delitem_snd s0 key
      rw [hstep] at this
      exact this
    rw [h2]
    exact ih

/-- C8: the stored `max_displacement` is at every reachable state (after
construction and after any sequence of possibly-failing set/get/delete
calls, deletes included) an upper bound on the true displacement — stored
index minus home hash — of every live entry. -/
theorem max_dist_dominates_displacement (s : RobinHoodDict) (hr : Reachable s)
    (i : Nat) (rv : RobinValue) (hslot : s.buckets.data[i]? = some (some rv)) :
    (i : Int) - (rv.hash : Int) ≤ s.max_dist :=
  ((reachable_inv hr).2.2 i rv hslot).2.2.1

/-- Witness for C8: in the concrete reachable one-entry table
`set(0, 1)` on a fresh dict, the entry at slot 0 has displacement
`0 - 0 ≤ max_dist`. -/
theorem max_dist_dominates_displacement_witness :
    (0 : Int) - 0 ≤ (runSet (blankDict 0) 0 1).max_dist :=
  max_dist_dominates_displacement (runSet (blankDict 0) 0 1)
    (Reachable.set_ok (blankDict 0) (runSet (blankDict 0) 0 1) 20 0 1
      (Reachable.init 0) (by rfl))
    0 ⟨0, 0, 1⟩ (by rfl)

/-- C6 (amended): in every reachable table, each Occupied slot at index `i`
with home hash `h` satisfies `h ≤ i`, and every index of its probe path
`[h, i)` is Occupied by an entry with home hash at least `h`; the claimed
non-decreasing ordering along a run does not hold (see
`robin_ordering_violated`). -/
theorem probe_path_invariant (s : RobinHoodDict) (hr : Reachable s)
    (i : Nat) (rv : RobinValue) (hslot : s.buckets.data[i]? = some (some rv)) :
    rv.hash ≤ i ∧
    ∀ j : Nat, rv.hash ≤ j → j < i →
      ∃ rv2, s.buckets.data[j]? = some (some rv2) ∧ rv.hash ≤ rv2.hash := by
  obtain ⟨_, h2, _, h4⟩ := (reachable_inv hr).2.2 i rv hslot
  exact ⟨h2, h4⟩

/-- Witness for C6 (amended): in the counterexample table of
`robin_ordering_violated`, the entry with home 4 stored at slot 6 has the
occupied slot 5 on its probe path, with home hash at least 4. -/
theorem probe_path_invariant_witness :
    ∃ rv2, (runSet (runSet (runSet (blankDict 0) 4 10) 5 11) 14 12).buckets.data[5]?
        = some (some rv2) ∧ (4 : Nat) ≤ rv2.hash := by
  have hreach : Reachable (runSet (runSet (runSet (blankDict 0) 4 10) 5 11) 14 12) :=
    Reachable.set_ok _ _ 20 14 12
      (Reachable.set_ok _ _ 20 5 11
        (Reachable.set_ok _ _ 20 4 10 (Reachable.init 0) (by rfl)) (by rfl)) (by rfl)
  exact (probe_path_invariant _ hreach 6 ⟨4, 14, 12⟩ (by rfl)).2 5 (by decide) (by decide)

lemma compute_hash_lt (s : RobinHoodDict) (key : Int) (hpos : 0 < capacity s) :
    compute_hash s key < capacity s := by
  show (hashKey key % (capacity s : Int)).toNat < capacity s
  have hne : (capacity s : Int) ≠ 0 := by
    have : capacity s ≠ 0 := by omega
    exact_mod_cast this
  have h1 : 0 ≤ hashKey key % (capacity s : Int) := Int.emod_nonneg _ hne
  have h2 : hashKey key % (capacity s : Int) < (capacity s : Int) :=
    Int.emod_lt_of_pos _ (by exact_mod_cast hpos)
  omega

lemma evicted_hash (s : RobinHoodDict) (key : Int) (idx : Nat) (rv : RobinValue)
    (hInv : Inv s) (hfb : find_bucket s (compute_hash s key) = some (idx, some rv)) :
    rv.hash < compute_hash s key ∧ rv.hash = hash_mod (capacity s) rv.key := by
  obtain ⟨hge, hlt, hidx, hpath, hb⟩ := find_bucket_spec s _ idx (some rv) hfb
  rcases hb with hbn | ⟨rv0, heq0, hlt0⟩
  · exact Option.noConfusion hbn
  · have he : rv = rv0 := Option.some.inj heq0
    rw [← he] at hlt0
    exact ⟨hlt0, (hInv.2.2 idx rv hidx).1⟩

lemma exec_set_headroom : ∀ (fuel : Nat) (s : RobinHoodDict) (key val : Int),
    Inv s → compute_hash s key < fuel →
    3 * (s.buckets.n_full + 2) < 2 * (capacity s : Int) →
    HeadroomOut s (execFuel fuel (.set s key val)) := by
  intro fuel
  induction fuel with
  | zero => intro s key val hInv hlt hload; exact absurd hlt (Nat.not_lt_zero _)
  | succ fuel ih =>
    intro s key val hInv hlt hload
    rw [execFuel]
    split
    · trivial
    · rcases hfb : find_bucket s (compute_hash s key) with _ | ⟨idx, bucket⟩
      · trivial
      · obtain ⟨s2, hok, hInv2, hcap2, hn2, hmax2⟩ :=
          insert_step s key val idx bucket hInv hfb
        dsimp only
        rw [hok]
        dsimp only
        cases bucket with
        | some rv =>
          obtain ⟨hrvlt, hrvhm⟩ := evicted_hash s key idx rv hInv hfb
          have hch2 : compute_hash s2 rv.key = rv.hash := by
            show hash_mod (capacity s2) rv.key = rv.hash
            rw [hcap2, hrvhm]
          simp only [Option.isSome_some, if_true, add_zero] at hn2
          have hrec := ih s2 rv.key rv.value hInv2
            (by rw [hch2]; omega)
            (by rw [hn2, hcap2]; exact hload)
          show HeadroomOut s (execFuel fuel (.set s2 rv.key rv.value))
          rcases hout : execFuel fuel (.set s2 rv.key rv.value) with s3 | ⟨e, s3⟩ | _ <;>
            rw [hout] at hrec
          · obtain ⟨hI3, hc3, hn3⟩ := hrec
            exact ⟨hI3, by rw [hc3, hcap2], by omega⟩
          · trivial
          · exact hrec
        | none =>
          simp only [Option.isSome_none, Bool.false_eq_true, if_false] at hn2
          dsimp only
          split
          · rename_i hload2
            exfalso
            rw [hcap2] at hload2
            omega
          · exact ⟨hInv2, hcap2, by omega⟩

lemma exec_replay_fuel : ∀ (l : List RobinValue) (fuel : Nat) (s : RobinHoodDict),
    Inv s →
    capacity s + l.length < fuel →
    3 * (s.buckets.n_full + 2 * (l.length : Int)) < 2 * (capacity s : Int) →
    execFuel fuel (.replay s l) ≠ .nofuel := by
  intro l
  induction l with
  | nil =>
    intro fuel s hInv hfuel hload
    match fuel with
    | 0 => exact absurd hfuel (by omega)
    | fuel + 1 =>
      rw [execFuel]
      exact fun h => SetOut.noConfusion h
  | cons rv rest ih =>
    intro fuel s hInv hfuel hload
    simp only [List.length_cons] at hfuel hload
    push_cast at hload
    match fuel with
    | 0 => exact absurd hfuel (by omega)
    | g + 1 =>
      rw [execFuel]
      have hcapPos : 0 < capacity s := by have := hInv.1; omega
      have hh := compute_hash_lt s rv.key hcapPos
      have hA := exec_set_headroom g s rv.key rv.value hInv (by omega) (by omega)
      rcases hout : execFuel g (.set s rv.key rv.value) with s1 | ⟨e, s1⟩ | _ <;>
        rw [hout] at hA
      · obtain ⟨hI1, hc1, hn1⟩ := hA
        dsimp only
        refine ih g s1 hI1 ?_ ?_
        · rw [hc1]; omega
        · rw [hc1]; omega
      · exact fun h => SetOut.noConfusion h
      · exact absurd hA id

lemma exec_set_total : ∀ (fuel : Nat) (s : RobinHoodDict) (key val : Int),
    Inv s → compute_hash s key + 5 * capacity s + 8 < fuel →
    execFuel fuel (.set s key val) ≠ .nofuel := by
  intro fuel
  induction fuel with
  | zero => intro s key val hInv hlt; exact absurd hlt (by omega)
  | succ fuel ih =>
    intro s key val hInv hlt
    rw [execFuel]
    split
    · exact fun h => SetOut.noConfusion h
    · rcases hfb : find_bucket s (compute_hash s key) with _ | ⟨idx, bucket⟩
      · exact fun h => SetOut.noConfusion h
      · obtain ⟨s2, hok, hInv2, hcap2, hn2, hmax2⟩ :=
          insert_step s key val idx bucket hInv hfb
        dsimp only
        rw [hok]
        dsimp only
        cases bucket with
        | some rv =>
          obtain ⟨hrvlt, hrvhm⟩ := evicted_hash s key idx rv hInv hfb
          have hch2 : compute_hash s2 rv.key = rv.hash := by
            show hash_mod (capacity s2) rv.key = rv.hash
            rw [hcap2, hrvhm]
          exact ih s2 rv.key rv.value hInv2 (by rw [hch2, hcap2]; omega)
        | none =>
          simp only [Option.isSome_none, Bool.false_eq_true, if_false] at hn2
          dsimp only
          split
          · rename_i hload2
            have hocc2 := hInv2.2.1
            have hcap10 := hInv2.1
            have hlenocc : (occupied_entries s2.buckets.data).length
                = occ_count s2.buckets.data := length_occupied_entries _
            have hocc_le : occ_count s2.buckets.data ≤ capacity s2 :=
              List.countP_le_length _
            have hcap3 :
                capacity { s2 with buckets := BucketList.blank (2 * s2.buckets.n_full).toNat }
                  = (2 * s2.buckets.n_full).toNat := by
              show (List.replicate (2 * s2.buckets.n_full).toNat (none : Bucket)).length = _
              rw [List.length_replicate]
            have hcap10b : (10:Int) ≤ (capacity s2 : Int) := by exact_mod_cast hcap10
            have hocc_leb : (occ_count s2.buckets.data : Int) ≤ (capacity s2 : Int) := by
              exact_mod_cast hocc_le
            have hcapeq : (capacity s2 : Int) = (capacity s : Int) := by
              exact_mod_cast congrArg (Nat.cast : Nat → Int) hcap2
            apply exec_replay_fuel
            · exact rehash_blank_inv s2 hInv2 hload2
            · rw [hcap3, hlenocc]
              omega
            · show 3 * ((0:Int) + 2 * ((occupied_entries s2.buckets.data).length : Int))
                < 2 * ((capacity { s2 with
                    buckets := BucketList.blank (2 * s2.buckets.n_full).toNat } : Nat) : Int)
              rw [hcap3, hlenocc]
              omega
          · exact fun h => SetOut.noConfusion h

/-- C9: every `set(key, val)` on a reachable table terminates: some fuel
bound makes the embedded interpreter return or raise rather than exhaust
fuel.  The eviction cascade strictly decreases the home hash of the entry
being reinserted (the stolen slot's occupant has a strictly smaller home
hash, and its stored hash is its recomputed one by the invariant), and the
at-most-one rehash replay keeps the fresh table's load strictly below the
grow threshold, so no nested rehash occurs. -/
theorem setitem_terminates (s : RobinHoodDict) (hr : Reachable s) (key val : Int) :
    ∃ fuel, setitemFuel fuel s key val ≠ .nofuel :=
  ⟨compute_hash s key + 5 * capacity s + 9,
    exec_set_total _ s key val (reachable_inv hr) (by omega)⟩

/-- Witness for C9: inserting key 0 into a fresh table terminates. -/
theorem setitem_terminates_witness :
    ∃ fuel, setitemFuel fuel (blankDict 0) 0 1 ≠ .nofuel :=
  setitem_terminates (blankDict 0) (Reachable.init 0) 0 1

end RobinDict
